import Mathlib

/-!
Verification of the ranking and decision core of the Stock-Market bot.

The development shallowly embeds the two source files that contain the
core (`src/bst.py` and `src/bot.py`):

* Python floats (prices, moving averages, trend scores, cash) are
  modelled as rationals (`ℚ`): the core only adds, subtracts,
  multiplies, divides and compares them.
* Share quantities, share limits and day counts are integers (`ℤ`),
  window lengths are `ℕ`.
* The external collaborators (broker and data provider) are oracles
  passed in as functions: `bars : String → List ℚ` for daily closes
  (oldest first, as the data client returns them), `pos : String → ℤ`
  for `current_position_qty`'s underlying answer, a `Bool` for the
  market clock, and the starting cash for `account.cash`.
* Fallible calls return `Except`.

Definitions keep the source names (`insert`, `get_ranked_descending`,
`count_less_than`, `sma`, `get_last_n_closes`, `rank_symbols`,
`days_since`, `run_once`, ...).
-/

namespace StockMarket

/-! ## `src/bst.py` — the Ordered Score Index -/

/-- A node of the binary search tree, `bst.py`'s `BSTNode`; `nil`
models Python's `None` child. The key is the trend score. -/
inductive BSTNode (α : Type) where
  | nil : BSTNode α
  | node (key : ℚ) (value : α) (left : BSTNode α) (right : BSTNode α)
deriving DecidableEq

namespace BST

variable {α : Type}

/-- `BST.insert` / `BST._insert_rec`: strictly greater keys descend
right, keys less than or equal descend left; no balancing, no
deduplication. -/
def insert : BSTNode α → ℚ → α → BSTNode α
  | .nil, key, value => .node key value .nil .nil
  | .node k v l r, key, value =>
      if key > k then .node k v l (insert r key value)
      else .node k v (insert l key value) r

/-- `BST.get_ranked_descending` / `BST._reverse_inorder`: right
subtree, then the node's value, then left subtree. -/
def get_ranked_descending : BSTNode α → List α
  | .nil => []
  | .node _ v l r => get_ranked_descending r ++ v :: get_ranked_descending l

/-- The same reverse-inorder traversal, keeping each node's key next to
its value, so that properties about the keys of the ranking can be
stated. `get_ranked_descending` is its value projection
(`get_ranked_descending_eq_entriesDesc`). -/
def entriesDesc : BSTNode α → List (ℚ × α)
  | .nil => []
  | .node k v l r => entriesDesc r ++ (k, v) :: entriesDesc l

/-- `BST.count_less_than` / `BST._count_less_rec`: full traversal
counting nodes with key strictly below the threshold. -/
def count_less_than : BSTNode α → ℚ → ℕ
  | .nil, _ => 0
  | .node k _ l r, threshold =>
      (if k < threshold then 1 else 0) + count_less_than l threshold
        + count_less_than r threshold

/-- `BST.get_max`: the rightmost node, or `none` on the empty tree. -/
def get_max : BSTNode α → Option (ℚ × α)
  | .nil => none
  | .node k v _ .nil => some (k, v)
  | .node _ _ _ (.node k v l r) => get_max (.node k v l r)

/-- A sequence of `insert(key, value)` calls on a tree, in list order. -/
def insertAll (t : BSTNode α) (ps : List (ℚ × α)) : BSTNode α :=
  ps.foldl (fun acc p => insert acc p.1 p.2) t

/-- All keys of the tree satisfy `p`. -/
def ForallKeys (p : ℚ → Prop) : BSTNode α → Prop
  | .nil => True
  | .node k _ l r => p k ∧ ForallKeys p l ∧ ForallKeys p r

/-- The search-tree invariant `insert` maintains: left keys are `≤` the
node's key, right keys are strictly greater. -/
def Ordered : BSTNode α → Prop
  | .nil => True
  | .node k _ l r =>
      ForallKeys (fun x => x ≤ k) l ∧ ForallKeys (fun x => k < x) r
        ∧ Ordered l ∧ Ordered r

end BST

/-! ## List-side sorting (the comparison point of the refinement claim,
and the model of `ranked.sort(key=..., reverse=True)` in `bot.py`) -/

variable {α : Type}

/-- Insert a keyed element into a list, placing it before the first
element of strictly smaller key — i.e. after every earlier element of
greater *or equal* key. -/
def stableInsert (x : ℚ × α) : List (ℚ × α) → List (ℚ × α)
  | [] => [x]
  | y :: ys => if x.1 ≥ y.1 then x :: y :: ys else y :: stableInsert x ys

/-- Stable descending sort by key: the result's keys are non-increasing
and elements with equal keys keep their input order (each element is
inserted before strictly smaller keys only, so it stays after earlier
equal keys). This is the specification-side model of a stable
descending sort, e.g. Python's `list.sort(key=..., reverse=True)`. -/
def stableSortDesc : List (ℚ × α) → List (ℚ × α)
  | [] => []
  | x :: xs => stableInsert x (stableSortDesc xs)

/-- Insert a keyed element into a list, placing it after every element
of greater or equal key (the strict mirror of `stableInsert`, matching
what one tree `insert` does to the reverse-inorder listing). -/
def insDesc (x : ℚ × α) : List (ℚ × α) → List (ℚ × α)
  | [] => [x]
  | y :: ys => if x.1 > y.1 then x :: y :: ys else y :: insDesc x ys

/-! ## `src/bot.py` — scoring, ranking and the decision cycle -/

/-- One entry of the ranking: `(sym, trend, short_avg, long_avg, latest)`
as built in `rank_symbols`. -/
structure ScoreEntry where
  symbol : String
  trend : ℚ
  short_avg : ℚ
  long_avg : ℚ
  latest : ℚ
deriving DecidableEq

/-- The fields of `Settings` the decision core reads (credentials, feed
and watchlist are consumed by the external collaborators). -/
structure Settings where
  max_shares : ℤ
  shares_per_trade : ℤ
  wait_days : ℤ
  short_window : ℕ
  long_window : ℕ
deriving DecidableEq

/-- `sma`: arithmetic mean. (On `[]` the source would divide by zero;
rational division by zero yields `0` here — no claim touches it.) -/
def sma (prices : List ℚ) : ℚ := prices.sum / (prices.length : ℚ)

/-- Python's `closes[-n:]`: the last `n` elements, except that `-0`
denotes the start, so `n = 0` yields the whole list. -/
def lastN (l : List ℚ) (n : ℕ) : List ℚ :=
  if n = 0 then l else l.drop (l.length - n)

/-- The structured failure of `get_last_n_closes` (the source raises
`RuntimeError("Not enough daily bars for {symbol}: need {n}, got {got}")`). -/
inductive RankError where
  | insufficientHistory (symbol : String) (need : ℕ) (got : ℕ)
deriving DecidableEq

/-- `get_last_n_closes`, with the data client's answer for the symbol
supplied by the oracle `bars`: fails iff fewer than `n` closes came
back, otherwise returns the last `n` of them. -/
def get_last_n_closes (bars : String → List ℚ) (symbol : String) (n : ℕ) :
    Except RankError (List ℚ) :=
  let closes := bars symbol
  if closes.length < n then
    .error (.insufficientHistory symbol n closes.length)
  else
    .ok (lastN closes n)

/-- Stable descending sort of score entries by trend:
`ranked.sort(key=lambda x: x[1], reverse=True)` (Python's sort is
stable and `reverse=True` keeps the order of equal keys). -/
def sortRankedDesc (es : List ScoreEntry) : List ScoreEntry :=
  (stableSortDesc (es.map fun e => (e.trend, e))).map Prod.snd

/-- The loop body of `rank_symbols` for the remaining symbols: score
each one, propagating the first failure. -/
def score_symbols (bars : String → List ℚ) (symbols : List String)
    (short_window long_window : ℕ) : Except RankError (List ScoreEntry) :=
  match symbols with
  | [] => .ok []
  | sym :: rest =>
    match get_last_n_closes bars sym long_window with
    | .error e => .error e
    | .ok closes_long =>
      let closes_short := lastN closes_long short_window
      let short_avg := sma closes_short
      let long_avg := sma closes_long
      let trend := short_avg - long_avg
      let latest := closes_long.getLast?.getD 0
      match score_symbols bars rest short_window long_window with
      | .error e => .error e
      | .ok tail => .ok (⟨sym, trend, short_avg, long_avg, latest⟩ :: tail)

/-- `rank_symbols`: score every watchlist symbol (a failure for any
symbol propagates out of the whole pass), then sort by trend,
descending. -/
def rank_symbols (bars : String → List ℚ) (symbols : List String)
    (short_window long_window : ℕ) : Except RankError (List ScoreEntry) :=
  match score_symbols bars symbols short_window long_window with
  | .error e => .error e
  | .ok ranked => .ok (sortRankedDesc ranked)

/-- `current_position_qty`: any failure of the broker's position query
is swallowed and `0` returned. -/
def current_position_qty (res : Except String ℤ) : ℤ :=
  match res with
  | .ok q => q
  | .error _ => 0

/-- The `last_trade_day` map of `state.json`, days as UTC day indices. -/
def LastTradeDay : Type := String → Option ℤ

/-- `state["last_trade_day"][sym] = _format_day(today)`. -/
def set_last_trade_day (st : LastTradeDay) (sym : String) (d : ℤ) :
    LastTradeDay :=
  fun s => if s = sym then some d else st s

/-- `days_since`: calendar days since the recorded last trade, with
"never traded" an effectively infinite `10 ^ 9`. -/
def days_since (last_day : Option ℤ) (today : ℤ) : ℤ :=
  match last_day with
  | none => 10 ^ 9
  | some d => today - d

/-- One emitted decision of a cycle: the `market_sell` / `market_buy`
orders, and (for observability) the `no buy` report with its three
evaluated reasons. -/
inductive Decision where
  | sell (symbol : String) (qty : ℤ)
  | buy (symbol : String) (qty : ℤ)
  | noBuy (symbol : String) (waited : ℤ) (under_max : Bool) (can_afford : Bool)
deriving DecidableEq

/-- The running state of one decision cycle: cash, cooldown map and the
decisions emitted so far. -/
structure PassState where
  cash : ℚ
  last_trade_day : LastTradeDay
  decisions : List Decision

/-- The body of `run_once`'s SELL loop for one ranked entry: holding a
positive quantity whose short average is below its long average sells
the entire position, credits `qty * latest` and stamps the cooldown. -/
def sell_step (pos : String → ℤ) (today : ℤ) (ps : PassState)
    (e : ScoreEntry) : PassState :=
  let qty := pos e.symbol
  if qty ≤ 0 then ps
  else if e.short_avg < e.long_avg then
    ⟨ps.cash + (qty : ℚ) * e.latest,
      set_last_trade_day ps.last_trade_day e.symbol today,
      ps.decisions ++ [Decision.sell e.symbol qty]⟩
  else ps

/-- The body of `run_once`'s BUY loop for one ranked entry:
non-positive trend is skipped silently; otherwise a buy of
`shares_per_trade` happens iff the cooldown has passed, the position
cap allows it and the running cash covers the cost, and a `no buy`
report carries the three reasons otherwise. -/
def buy_step (s : Settings) (pos : String → ℤ) (today : ℤ) (ps : PassState)
    (e : ScoreEntry) : PassState :=
  if e.trend ≤ 0 then ps
  else
    let waited := days_since (ps.last_trade_day e.symbol) today
    let qty := pos e.symbol
    let cost := (s.shares_per_trade : ℚ) * e.latest
    let can_afford : Bool := decide (cost ≤ ps.cash)
    let under_max : Bool := decide (qty + s.shares_per_trade ≤ s.max_shares)
    if decide (s.wait_days ≤ waited) && under_max && can_afford then
      ⟨ps.cash - cost,
        set_last_trade_day ps.last_trade_day e.symbol today,
        ps.decisions ++ [Decision.buy e.symbol s.shares_per_trade]⟩
    else
      ⟨ps.cash, ps.last_trade_day,
        ps.decisions ++ [Decision.noBuy e.symbol waited under_max can_afford]⟩

/-- What one cycle hands back: the emitted decisions in order, the
final running cash, and the cooldown map that `save_state` persists. -/
structure CycleResult where
  decisions : List Decision
  cash : ℚ
  last_trade_day : LastTradeDay

/-- The decision part of `run_once`, over the ranking and the oracles:
if the market clock reports closed, return (and persist the loaded
state) before either pass; otherwise run the SELL loop and then the
BUY loop over the ranking, threading cash and cooldown state. -/
def run_once (s : Settings) (pos : String → ℤ) (today : ℤ)
    (market_open : Bool) (cash0 : ℚ) (st0 : LastTradeDay)
    (ranked : List ScoreEntry) : CycleResult :=
  if market_open = false then
    ⟨[], cash0, st0⟩
  else
    let afterSell := ranked.foldl (sell_step pos today) ⟨cash0, st0, []⟩
    let afterBuy := ranked.foldl (buy_step s pos today) afterSell
    ⟨afterBuy.decisions, afterBuy.cash, afterBuy.last_trade_day⟩

/-- Whether a decision is a SELL order. -/
def Decision.isSell : Decision → Bool
  | .sell _ _ => true
  | _ => false

/-- The symbol a decision concerns. -/
def Decision.symbolOf : Decision → String
  | .sell sym _ => sym
  | .buy sym _ => sym
  | .noBuy sym _ _ _ => sym

/-! ## Concrete fixtures (used by witnesses and counterexamples) -/

/-- A broker oracle: 100 shares of PFE, nothing else. -/
def posA : String → ℤ := fun s => if s = "PFE" then 100 else 0

/-- An empty cooldown map: no symbol ever traded. -/
def stEmpty : LastTradeDay := fun _ => none

/-- The default configuration: `MAX_SHARES=300`, `SHARES_PER_TRADE=50`,
`WAIT_DAYS=5`, `SHORT_WINDOW=2`, `LONG_WINDOW=5` (windows shrunk to the
spec's worked example). -/
def settings1 : Settings := ⟨300, 50, 5, 2, 5⟩

/-- The entry of the spec's worked example: closes `[1,2,3,4,5]` with
`shortWindow=2, longWindow=5` give `short=4.5`, `long=3`, `score=1.5`,
`latest=5`. -/
def entryUp : ScoreEntry := ⟨"AAPL", 3 / 2, 9 / 2, 3, 5⟩

/-- An entry in structural decline: `short_avg < long_avg`. -/
def entryDown : ScoreEntry := ⟨"PFE", -1, 2, 3, 10⟩

/-- A data oracle where "A" has a single daily close but "B" has two:
with `longWindow = 2`, "A" lacks history while "B" has enough. -/
def barsShort : String → List ℚ := fun s => if s = "B" then [1, 2] else [1]

/-! ## Step-shape helper lemmas -/

theorem sell_step_skip (pos : String → ℤ) (today : ℤ) (ps : PassState)
    (e : ScoreEntry) (h : ¬(0 < pos e.symbol ∧ e.short_avg < e.long_avg)) :
    sell_step pos today ps e = ps := by
  unfold sell_step
  by_cases hq : pos e.symbol ≤ 0
  · simp [hq]
  · have hs : ¬ e.short_avg < e.long_avg := fun hs => h ⟨lt_of_not_le hq, hs⟩
    simp [hq, hs]

theorem sell_step_emit (pos : String → ℤ) (today : ℤ) (ps : PassState)
    (e : ScoreEntry) (hq : 0 < pos e.symbol) (hs : e.short_avg < e.long_avg) :
    sell_step pos today ps e =
      ⟨ps.cash + (pos e.symbol : ℚ) * e.latest,
        set_last_trade_day ps.last_trade_day e.symbol today,
        ps.decisions ++ [Decision.sell e.symbol (pos e.symbol)]⟩ := by
  simp [sell_step, not_le.mpr hq, hs]

theorem buy_step_skip (s : Settings) (pos : String → ℤ) (today : ℤ)
    (ps : PassState) (e : ScoreEntry) (h : e.trend ≤ 0) :
    buy_step s pos today ps e = ps := by
  simp [buy_step, h]

theorem buy_step_emit (s : Settings) (pos : String → ℤ) (today : ℤ)
    (ps : PassState) (e : ScoreEntry) (ht : 0 < e.trend)
    (h1 : s.wait_days ≤ days_since (ps.last_trade_day e.symbol) today)
    (h2 : pos e.symbol + s.shares_per_trade ≤ s.max_shares)
    (h3 : (s.shares_per_trade : ℚ) * e.latest ≤ ps.cash) :
    buy_step s pos today ps e =
      ⟨ps.cash - (s.shares_per_trade : ℚ) * e.latest,
        set_last_trade_day ps.last_trade_day e.symbol today,
        ps.decisions ++ [Decision.buy e.symbol s.shares_per_trade]⟩ := by
  simp [buy_step, not_le.mpr ht, h1, h2, h3]

theorem buy_step_noemit (s : Settings) (pos : String → ℤ) (today : ℤ)
    (ps : PassState) (e : ScoreEntry) (ht : 0 < e.trend)
    (h : ¬(s.wait_days ≤ days_since (ps.last_trade_day e.symbol) today ∧
          pos e.symbol + s.shares_per_trade ≤ s.max_shares ∧
          (s.shares_per_trade : ℚ) * e.latest ≤ ps.cash)) :
    buy_step s pos today ps e =
      ⟨ps.cash, ps.last_trade_day,
        ps.decisions ++ [Decision.noBuy e.symbol
          (days_since (ps.last_trade_day e.symbol) today)
          (decide (pos e.symbol + s.shares_per_trade ≤ s.max_shares))
          (decide ((s.shares_per_trade : ℚ) * e.latest ≤ ps.cash))]⟩ := by
  unfold buy_step
  have hnt : ¬ e.trend ≤ 0 := not_le.mpr ht
  rw [if_neg hnt, if_neg]
  simp only [Bool.and_eq_true, decide_eq_true_eq]
  tauto

/-! ## Fold lemmas: what each pass appends to the decision list -/

/-- The sell pass only appends SELL decisions, and their symbols form a
subsequence of the processed entries' symbols in order. -/
theorem sell_fold_decisions (pos : String → ℤ) (today : ℤ)
    (es : List ScoreEntry) :
    ∀ (c : ℚ) (st : LastTradeDay) (ds : List Decision),
      ∃ δ : List Decision,
        (es.foldl (sell_step pos today) ⟨c, st, ds⟩).decisions = ds ++ δ ∧
        (∀ d ∈ δ, d.isSell = true) ∧
        List.Sublist (δ.map Decision.symbolOf) (es.map ScoreEntry.symbol) := by
  induction es with
  | nil => exact fun c st ds => ⟨[], by simp, by simp, by simp⟩
  | cons e es ih =>
    intro c st ds
    simp only [List.foldl_cons, List.map_cons]
    by_cases h : 0 < pos e.symbol ∧ e.short_avg < e.long_avg
    · rw [sell_step_emit pos today ⟨c, st, ds⟩ e h.1 h.2]
      obtain ⟨δ, h1, h2, h3⟩ := ih _ _ _
      refine ⟨Decision.sell e.symbol (pos e.symbol) :: δ, ?_, ?_, ?_⟩
      · rw [h1]; simp
      · intro d hd
        rcases List.mem_cons.mp hd with rfl | hd
        · rfl
        · exact h2 d hd
      · simpa [Decision.symbolOf] using h3.cons₂ e.symbol
    · rw [sell_step_skip pos today ⟨c, st, ds⟩ e h]
      obtain ⟨δ, h1, h2, h3⟩ := ih c st ds
      exact ⟨δ, h1, h2, h3.cons e.symbol⟩

/-- The buy pass never appends a SELL decision, and the symbols of what
it appends form a subsequence of the processed entries' symbols in
order. -/
theorem buy_fold_decisions (s : Settings) (pos : String → ℤ) (today : ℤ)
    (es : List ScoreEntry) :
    ∀ (c : ℚ) (st : LastTradeDay) (ds : List Decision),
      ∃ δ : List Decision,
        (es.foldl (buy_step s pos today) ⟨c, st, ds⟩).decisions = ds ++ δ ∧
        (∀ d ∈ δ, d.isSell = false) ∧
        List.Sublist (δ.map Decision.symbolOf) (es.map ScoreEntry.symbol) := by
  induction es with
  | nil => exact fun c st ds => ⟨[], by simp, by simp, by simp⟩
  | cons e es ih =>
    intro c st ds
    simp only [List.foldl_cons, List.map_cons]
    by_cases ht : e.trend ≤ 0
    · rw [buy_step_skip s pos today ⟨c, st, ds⟩ e ht]
      obtain ⟨δ, h1, h2, h3⟩ := ih c st ds
      exact ⟨δ, h1, h2, h3.cons e.symbol⟩
    · have ht' : 0 < e.trend := lt_of_not_le ht
      by_cases h : s.wait_days ≤ days_since (st e.symbol) today ∧
          pos e.symbol + s.shares_per_trade ≤ s.max_shares ∧
          (s.shares_per_trade : ℚ) * e.latest ≤ c
      · rw [buy_step_emit s pos today ⟨c, st, ds⟩ e ht' h.1 h.2.1 h.2.2]
        obtain ⟨δ, h1, h2, h3⟩ := ih _ _ _
        refine ⟨Decision.buy e.symbol s.shares_per_trade :: δ, ?_, ?_, ?_⟩
        · rw [h1]; simp
        · intro d hd
          rcases List.mem_cons.mp hd with rfl | hd
          · rfl
          · exact h2 d hd
        · simpa [Decision.symbolOf] using h3.cons₂ e.symbol
      · rw [buy_step_noemit s pos today ⟨c, st, ds⟩ e ht' h]
        obtain ⟨δ, h1, h2, h3⟩ := ih _ _ _
        refine ⟨Decision.noBuy e.symbol (days_since (st e.symbol) today)
            (decide (pos e.symbol + s.shares_per_trade ≤ s.max_shares))
            (decide ((s.shares_per_trade : ℚ) * e.latest ≤ c)) :: δ, ?_, ?_, ?_⟩
        · rw [h1]; simp
        · intro d hd
          rcases List.mem_cons.mp hd with rfl | hd
          · rfl
          · exact h2 d hd
        · simpa [Decision.symbolOf] using h3.cons₂ e.symbol

/-! ## Cash invariant lemmas -/

theorem sell_step_cash_nonneg (pos : String → ℤ) (today : ℤ) (ps : PassState)
    (e : ScoreEntry) (h : 0 ≤ ps.cash) (hl : 0 ≤ e.latest) :
    0 ≤ (sell_step pos today ps e).cash := by
  by_cases hc : 0 < pos e.symbol ∧ e.short_avg < e.long_avg
  · rw [sell_step_emit pos today ps e hc.1 hc.2]
    have : (0 : ℚ) ≤ (pos e.symbol : ℚ) * e.latest :=
      mul_nonneg (by exact_mod_cast hc.1.le) hl
    dsimp
    linarith
  · rw [sell_step_skip pos today ps e hc]
    exact h

theorem buy_step_cash_nonneg (s : Settings) (pos : String → ℤ) (today : ℤ)
    (ps : PassState) (e : ScoreEntry) (h : 0 ≤ ps.cash) :
    0 ≤ (buy_step s pos today ps e).cash := by
  by_cases ht : e.trend ≤ 0
  · rw [buy_step_skip s pos today ps e ht]; exact h
  · by_cases hc : s.wait_days ≤ days_since (ps.last_trade_day e.symbol) today ∧
        pos e.symbol + s.shares_per_trade ≤ s.max_shares ∧
        (s.shares_per_trade : ℚ) * e.latest ≤ ps.cash
    · rw [buy_step_emit s pos today ps e (lt_of_not_le ht) hc.1 hc.2.1 hc.2.2]
      dsimp
      linarith [hc.2.2]
    · rw [buy_step_noemit s pos today ps e (lt_of_not_le ht) hc]
      exact h

theorem sell_fold_cash_nonneg (pos : String → ℤ) (today : ℤ)
    (es : List ScoreEntry) :
    ∀ ps : PassState, 0 ≤ ps.cash → (∀ e ∈ es, 0 ≤ e.latest) →
      0 ≤ (es.foldl (sell_step pos today) ps).cash := by
  induction es with
  | nil => exact fun ps h _ => h
  | cons e es ih =>
    intro ps h hl
    simp only [List.foldl_cons]
    exact ih _ (sell_step_cash_nonneg pos today ps e h (hl e (by simp)))
      (fun x hx => hl x (by simp [hx]))

theorem buy_fold_cash_nonneg (s : Settings) (pos : String → ℤ) (today : ℤ)
    (es : List ScoreEntry) :
    ∀ ps : PassState, 0 ≤ ps.cash →
      0 ≤ (es.foldl (buy_step s pos today) ps).cash := by
  induction es with
  | nil => exact fun ps h => h
  | cons e es ih =>
    intro ps h
    simp only [List.foldl_cons]
    exact ih _ (buy_step_cash_nonneg s pos today ps e h)

/-! ## Ordered Score Index lemmas -/

theorem BST.get_ranked_descending_eq_entriesDesc (t : BSTNode α) :
    BST.get_ranked_descending t = (BST.entriesDesc t).map Prod.snd := by
  induction t with
  | nil => rfl
  | node k v l r ihl ihr =>
    simp [BST.get_ranked_descending, BST.entriesDesc, ihl, ihr]

theorem BST.ForallKeys_insert {p : ℚ → Prop} (t : BSTNode α) (key : ℚ) (v : α)
    (h : BST.ForallKeys p t) (hk : p key) :
    BST.ForallKeys p (BST.insert t key v) := by
  induction t with
  | nil => exact ⟨hk, trivial, trivial⟩
  | node k val l r ihl ihr =>
    obtain ⟨h1, h2, h3⟩ := h
    unfold BST.insert
    by_cases hgt : key > k
    · simp only [hgt, if_true]
      exact ⟨h1, h2, ihr h3⟩
    · simp only [hgt, if_false]
      exact ⟨h1, ihl h2, h3⟩

theorem BST.Ordered_insert (t : BSTNode α) (key : ℚ) (v : α)
    (h : BST.Ordered t) : BST.Ordered (BST.insert t key v) := by
  induction t with
  | nil => exact ⟨trivial, trivial, trivial, trivial⟩
  | node k val l r ihl ihr =>
    obtain ⟨hl, hr, ol, or⟩ := h
    unfold BST.insert
    by_cases hgt : key > k
    · simp only [hgt, if_true]
      exact ⟨hl, BST.ForallKeys_insert r key v hr hgt, ol, ihr or⟩
    · simp only [hgt, if_false]
      exact ⟨BST.ForallKeys_insert l key v hl (not_lt.mp hgt), hr, ihl ol, or⟩

theorem BST.mem_entriesDesc {p : ℚ → Prop} (t : BSTNode α)
    (h : BST.ForallKeys p t) : ∀ x ∈ BST.entriesDesc t, p x.1 := by
  induction t with
  | nil => simp [BST.entriesDesc]
  | node k v l r ihl ihr =>
    obtain ⟨h1, h2, h3⟩ := h
    intro x hx
    simp only [BST.entriesDesc, List.mem_append, List.mem_cons] at hx
    rcases hx with hx | hx | hx
    · exact ihr h3 x hx
    · rw [hx]; exact h1
    · exact ihl h2 x hx

theorem insDesc_append_of_gt (x : ℚ × α) (l1 l2 : List (ℚ × α)) (k : ℚ)
    (v : α) (h : x.1 > k) :
    insDesc x (l1 ++ (k, v) :: l2) = insDesc x l1 ++ (k, v) :: l2 := by
  induction l1 with
  | nil => simp [insDesc, h]
  | cons a l1 ih =>
    by_cases ha : x.1 > a.1
    · simp [insDesc, ha]
    · simp [insDesc, ha, ih]

theorem insDesc_append_of_le (x : ℚ × α) (l1 l2 : List (ℚ × α))
    (h : ∀ y ∈ l1, ¬ x.1 > y.1) :
    insDesc x (l1 ++ l2) = l1 ++ insDesc x l2 := by
  induction l1 with
  | nil => simp
  | cons a l1 ih =>
    have ha : ¬ x.1 > a.1 := h a (by simp)
    simp only [List.cons_append, insDesc, ha, if_false, List.append_eq]
    rw [ih (fun y hy => h y (by simp [hy]))]

theorem BST.entriesDesc_insert (t : BSTNode α) (key : ℚ) (v : α)
    (h : BST.Ordered t) :
    BST.entriesDesc (BST.insert t key v) =
      insDesc (key, v) (BST.entriesDesc t) := by
  induction t with
  | nil => rfl
  | node k val l r ihl ihr =>
    obtain ⟨hl, hr, ol, or⟩ := h
    unfold BST.insert
    by_cases hgt : key > k
    · simp only [hgt, if_true, BST.entriesDesc]
      rw [ihr or, insDesc_append_of_gt (key, v) _ _ k val hgt]
    · simp only [hgt, if_false, BST.entriesDesc]
      have hge : key ≤ k := not_lt.mp hgt
      have hall : ∀ y ∈ BST.entriesDesc r ++ [(k, val)], ¬ (key, v).1 > y.1 := by
        intro y hy
        rcases List.mem_append.mp hy with hy | hy
        · have := BST.mem_entriesDesc r hr y hy
          exact not_lt.mpr (le_of_lt (lt_of_le_of_lt hge this))
        · simp only [List.mem_singleton] at hy
          rw [hy]
          exact not_lt.mpr hge
      rw [ihl ol,
        show BST.entriesDesc r ++ (k, val) :: insDesc (key, v) (BST.entriesDesc l)
            = (BST.entriesDesc r ++ [(k, val)]) ++ insDesc (key, v) (BST.entriesDesc l)
          by simp,
        ← insDesc_append_of_le (key, v) _ _ hall]
      simp

theorem BST.Ordered_insertAll (ps : List (ℚ × α)) :
    ∀ t : BSTNode α, BST.Ordered t → BST.Ordered (BST.insertAll t ps) := by
  induction ps with
  | nil => exact fun t h => h
  | cons p ps ih =>
    intro t h
    exact ih (BST.insert t p.1 p.2) (BST.Ordered_insert t p.1 p.2 h)

theorem BST.entriesDesc_insertAll (ps : List (ℚ × α)) :
    ∀ t : BSTNode α, BST.Ordered t →
      BST.entriesDesc (BST.insertAll t ps) =
        ps.foldl (fun acc x => insDesc x acc) (BST.entriesDesc t) := by
  induction ps with
  | nil => exact fun t _ => rfl
  | cons p ps ih =>
    intro t h
    show BST.entriesDesc (BST.insertAll (BST.insert t p.1 p.2) ps) = _
    rw [ih (BST.insert t p.1 p.2) (BST.Ordered_insert t p.1 p.2 h),
      BST.entriesDesc_insert t p.1 p.2 h]
    rfl

/-- The two list insertions commute: placing `y` after its equals and
`x` before its equals land in disjoint or compatibly ordered spots. -/
theorem insDesc_stableInsert_comm (x y : ℚ × α) (l : List (ℚ × α)) :
    insDesc y (stableInsert x l) = stableInsert x (insDesc y l) := by
  induction l with
  | nil =>
    by_cases h : y.1 > x.1
    · simp [insDesc, stableInsert, h, not_le.mpr h]
    · simp [insDesc, stableInsert, h, not_lt.mp h]
  | cons z zs ih =>
    by_cases hxz : x.1 ≥ z.1 <;> by_cases hyz : y.1 > z.1
    · by_cases hxy : y.1 > x.1
      · simp [insDesc, stableInsert, hxz, hyz, hxy, not_le.mpr hxy]
      · simp [insDesc, stableInsert, hxz, hyz, hxy, not_lt.mp hxy]
    · have hyx : ¬ y.1 > x.1 := by
        simp only [not_lt] at hyz ⊢
        exact le_trans hyz hxz
      simp [insDesc, stableInsert, hxz, hyz, hyx]
    · have hxy : ¬ x.1 ≥ y.1 := by
        simp only [not_le, ge_iff_le, not_lt] at hxz ⊢
        exact lt_trans hxz hyz
      simp [insDesc, stableInsert, hxz, hyz, hxy]
    · simp [insDesc, stableInsert, hxz, hyz, ih]

theorem foldl_insDesc_stableInsert (xs : List (ℚ × α)) :
    ∀ (l : List (ℚ × α)) (x : ℚ × α),
      xs.foldl (fun acc y => insDesc y acc) (stableInsert x l) =
        stableInsert x (xs.foldl (fun acc y => insDesc y acc) l) := by
  induction xs with
  | nil => exact fun l x => rfl
  | cons y ys ih =>
    intro l x
    simp only [List.foldl_cons]
    rw [insDesc_stableInsert_comm x y l, ih]

/-- Inserting the pairs left to right (each new element settling after
its equals) builds exactly the stable descending sort. -/
theorem foldl_insDesc_eq_stableSortDesc (ps : List (ℚ × α)) :
    ps.foldl (fun acc x => insDesc x acc) [] = stableSortDesc ps := by
  induction ps with
  | nil => rfl
  | cons x xs ih =>
    simp only [List.foldl_cons]
    rw [show insDesc x ([] : List (ℚ × α)) = stableInsert x [] from rfl,
      foldl_insDesc_stableInsert, ih]
    rfl

/-- The reverse-inorder listing of a tree built by a sequence of
inserts is the stable descending sort of the inserted pairs. -/
theorem entriesDesc_insertAll_nil (ps : List (ℚ × α)) :
    BST.entriesDesc (BST.insertAll BSTNode.nil ps) = stableSortDesc ps := by
  rw [BST.entriesDesc_insertAll ps BSTNode.nil trivial]
  exact foldl_insDesc_eq_stableSortDesc ps

theorem length_stableInsert (x : ℚ × α) (l : List (ℚ × α)) :
    (stableInsert x l).length = l.length + 1 := by
  induction l with
  | nil => rfl
  | cons y ys ih =>
    by_cases h : x.1 ≥ y.1
    · simp [stableInsert, h]
    · simp [stableInsert, h, ih]

theorem length_stableSortDesc (ps : List (ℚ × α)) :
    (stableSortDesc ps).length = ps.length := by
  induction ps with
  | nil => rfl
  | cons x xs ih => simp [stableSortDesc, length_stableInsert, ih]

theorem mem_stableInsert (x z : ℚ × α) (l : List (ℚ × α)) :
    z ∈ stableInsert x l ↔ z = x ∨ z ∈ l := by
  induction l with
  | nil => simp [stableInsert]
  | cons y ys ih =>
    by_cases h : x.1 ≥ y.1
    · simp [stableInsert, h]
    · simp [stableInsert, h, ih]
      tauto

/-- `stableInsert` keeps the keys non-increasing. -/
theorem sorted_stableInsert (x : ℚ × α) (l : List (ℚ × α))
    (h : List.Pairwise (fun a b => b.1 ≤ a.1) l) :
    List.Pairwise (fun a b => b.1 ≤ a.1) (stableInsert x l) := by
  induction l with
  | nil => simp [stableInsert]
  | cons y ys ih =>
    rcases List.pairwise_cons.mp h with ⟨hy, hys⟩
    by_cases hx : x.1 ≥ y.1
    · simp only [stableInsert, hx, if_true]
      refine List.pairwise_cons.mpr ⟨?_, h⟩
      intro b hb
      rcases List.mem_cons.mp hb with rfl | hb
      · exact hx
      · exact le_trans (hy b hb) hx
    · simp only [stableInsert, hx, if_false]
      refine List.pairwise_cons.mpr ⟨?_, ih hys⟩
      intro b hb
      rcases (mem_stableInsert x b ys).mp hb with rfl | hb
      · exact le_of_lt (lt_of_not_le hx)
      · exact hy b hb

/-- The stable descending sort has non-increasing keys. -/
theorem sorted_stableSortDesc (ps : List (ℚ × α)) :
    List.Pairwise (fun a b => b.1 ≤ a.1) (stableSortDesc ps) := by
  induction ps with
  | nil => simp [stableSortDesc]
  | cons x xs ih => exact sorted_stableInsert x _ ih

/-- `count_less_than` agrees with counting over the reverse-inorder
listing, on any tree. -/
theorem count_less_than_eq_countP (t : BSTNode α) (thr : ℚ) :
    BST.count_less_than t thr =
      (BST.entriesDesc t).countP (fun x => decide (x.1 < thr)) := by
  induction t with
  | nil => rfl
  | node k v l r ihl ihr =>
    simp only [BST.count_less_than, BST.entriesDesc, ihl, ihr,
      List.countP_append, List.countP_cons]
    by_cases h : k < thr
    · simp [h]
      omega
    · simp [h]
      omega

/-! ## Error propagation lemmas -/

theorem score_symbols_error_of_short (bars : String → List ℚ) (sw lw : ℕ) :
    ∀ (syms : List String) (s : String), s ∈ syms → (bars s).length < lw →
      ∃ err, score_symbols bars syms sw lw = .error err := by
  intro syms
  induction syms with
  | nil => simp
  | cons a rest ih =>
    intro s hs hshort
    by_cases ha : (bars a).length < lw
    · exact ⟨RankError.insufficientHistory a lw (bars a).length,
        by simp [score_symbols, get_last_n_closes, ha]⟩
    · rcases List.mem_cons.mp hs with rfl | hmem
      · exact absurd hshort ha
      · obtain ⟨err, herr⟩ := ih s hmem hshort
        exact ⟨err, by simp [score_symbols, get_last_n_closes, ha, herr]⟩

theorem rank_symbols_error_of_short (bars : String → List ℚ)
    (syms : List String) (sw lw : ℕ) (s : String) (hs : s ∈ syms)
    (hshort : (bars s).length < lw) :
    ∃ err, rank_symbols bars syms sw lw = .error err := by
  obtain ⟨err, herr⟩ := score_symbols_error_of_short bars sw lw syms s hs hshort
  exact ⟨err, by simp [rank_symbols, herr]⟩

/-! ## Claim theorems: the decision passes -/

/-- C2: in the sell pass, an entry whose current position quantity is
positive and whose short average is below its long average yields a
SELL of the entire position, credits `qty * latest` to the running
cash and stamps the symbol's cooldown with today; any other entry
leaves cash, cooldown and decisions unchanged. -/
theorem sell_pass_step_spec (pos : String → ℤ) (today : ℤ) (ps : PassState)
    (e : ScoreEntry) :
    (0 < pos e.symbol ∧ e.short_avg < e.long_avg →
      sell_step pos today ps e =
        ⟨ps.cash + (pos e.symbol : ℚ) * e.latest,
          set_last_trade_day ps.last_trade_day e.symbol today,
          ps.decisions ++ [Decision.sell e.symbol (pos e.symbol)]⟩) ∧
    (¬(0 < pos e.symbol ∧ e.short_avg < e.long_avg) →
      sell_step pos today ps e = ps) := by
  constructor
  · rintro ⟨hq, hs⟩
    simp [sell_step, not_le.mpr hq, hs]
  · intro h
    unfold sell_step
    by_cases hq : pos e.symbol ≤ 0
    · simp [hq]
    · have hs : ¬ e.short_avg < e.long_avg := fun hs => h ⟨lt_of_not_le hq, hs⟩
      simp [hq, hs]

/-- C1: in the buy pass, an entry with non-positive trend is skipped
without any effect; for an entry with positive trend, a BUY of exactly
`shares_per_trade` shares is emitted iff the cooldown has passed, the
position cap allows the extra shares, and the running cash covers
`shares_per_trade * latest`; when it is emitted, the running cash drops
by exactly that cost and the symbol's cooldown is stamped with today. -/
theorem buy_pass_step_spec (s : Settings) (pos : String → ℤ) (today : ℤ)
    (ps : PassState) (e : ScoreEntry) :
    (e.trend ≤ 0 → buy_step s pos today ps e = ps) ∧
    (0 < e.trend →
      (((buy_step s pos today ps e).decisions =
          ps.decisions ++ [Decision.buy e.symbol s.shares_per_trade]) ↔
        (s.wait_days ≤ days_since (ps.last_trade_day e.symbol) today ∧
          pos e.symbol + s.shares_per_trade ≤ s.max_shares ∧
          (s.shares_per_trade : ℚ) * e.latest ≤ ps.cash)) ∧
      (s.wait_days ≤ days_since (ps.last_trade_day e.symbol) today →
        pos e.symbol + s.shares_per_trade ≤ s.max_shares →
        (s.shares_per_trade : ℚ) * e.latest ≤ ps.cash →
        buy_step s pos today ps e =
          ⟨ps.cash - (s.shares_per_trade : ℚ) * e.latest,
            set_last_trade_day ps.last_trade_day e.symbol today,
            ps.decisions ++ [Decision.buy e.symbol s.shares_per_trade]⟩)) := by
  refine ⟨fun h => by simp [buy_step, h], fun ht => ?_⟩
  have hnt : ¬ e.trend ≤ 0 := not_le.mpr ht
  constructor
  · unfold buy_step
    simp only [hnt, if_false, Bool.and_eq_true, decide_eq_true_eq]
    by_cases h1 : s.wait_days ≤ days_since (ps.last_trade_day e.symbol) today
      <;> by_cases h2 : pos e.symbol + s.shares_per_trade ≤ s.max_shares
      <;> by_cases h3 : (s.shares_per_trade : ℚ) * e.latest ≤ ps.cash
      <;> simp [h1, h2, h3]
  · intro h1 h2 h3
    unfold buy_step
    simp [hnt, h1, h2, h3]

/-- C3: in every cycle, every SELL decision precedes every BUY (and
no-buy) decision in the emitted sequence, and within each pass the
decisions' symbols appear in the order of the descending ranking. -/
theorem sells_precede_buys (s : Settings) (pos : String → ℤ) (today : ℤ)
    (market_open : Bool) (cash0 : ℚ) (st0 : LastTradeDay)
    (ranked : List ScoreEntry) :
    ∃ sells buys : List Decision,
      (run_once s pos today market_open cash0 st0 ranked).decisions =
        sells ++ buys ∧
      (∀ d ∈ sells, d.isSell = true) ∧
      (∀ d ∈ buys, d.isSell = false) ∧
      List.Sublist (sells.map Decision.symbolOf) (ranked.map ScoreEntry.symbol) ∧
      List.Sublist (buys.map Decision.symbolOf) (ranked.map ScoreEntry.symbol) := by
  cases market_open with
  | false =>
    exact ⟨[], [], by simp [run_once], by simp, by simp, by simp, by simp⟩
  | true =>
    obtain ⟨δ₁, h1, h2, h3⟩ := sell_fold_decisions pos today ranked cash0 st0 []
    obtain ⟨δ₂, h1', h2', h3'⟩ := buy_fold_decisions s pos today ranked
      (ranked.foldl (sell_step pos today) ⟨cash0, st0, []⟩).cash
      (ranked.foldl (sell_step pos today) ⟨cash0, st0, []⟩).last_trade_day
      (ranked.foldl (sell_step pos today) ⟨cash0, st0, []⟩).decisions
    refine ⟨δ₁, δ₂, ?_, h2, h2', h3, h3'⟩
    show (ranked.foldl (buy_step s pos today)
        (ranked.foldl (sell_step pos today) ⟨cash0, st0, []⟩)).decisions =
      δ₁ ++ δ₂
    have h1'' : (ranked.foldl (buy_step s pos today)
        (ranked.foldl (sell_step pos today) ⟨cash0, st0, []⟩)).decisions =
        (ranked.foldl (sell_step pos today) ⟨cash0, st0, []⟩).decisions ++ δ₂ :=
      h1'
    rw [h1'', h1]
    simp

/-- C7: when the market clock reports closed, the cycle emits no SELL
and no BUY decision at all, the running cash is the starting cash, and
the cooldown state handed back for persistence is exactly the loaded
one. -/
theorem market_closed_no_decisions (s : Settings) (pos : String → ℤ)
    (today : ℤ) (cash0 : ℚ) (st0 : LastTradeDay) (ranked : List ScoreEntry) :
    run_once s pos today false cash0 st0 ranked = ⟨[], cash0, st0⟩ := rfl

/-- C10: starting from non-negative cash, with non-negative latest
prices, the running cash is non-negative after every step of the sell
pass (every prefix of the ranking), after every step of the buy pass,
and at the end of the cycle: a SELL only adds `qty * latest ≥ 0`, and a
BUY happens only under the guard `cost ≤ cash` and subtracts exactly
`cost`. -/
theorem running_cash_nonneg (s : Settings) (pos : String → ℤ) (today : ℤ)
    (cash0 : ℚ) (st0 : LastTradeDay) (ranked : List ScoreEntry)
    (hc : 0 ≤ cash0) (hp : ∀ e ∈ ranked, 0 ≤ e.latest) :
    (∀ n : ℕ,
      0 ≤ ((ranked.take n).foldl (sell_step pos today) ⟨cash0, st0, []⟩).cash) ∧
    (∀ n : ℕ,
      0 ≤ ((ranked.take n).foldl (buy_step s pos today)
        (ranked.foldl (sell_step pos today) ⟨cash0, st0, []⟩)).cash) ∧
    (∀ market_open,
      0 ≤ (run_once s pos today market_open cash0 st0 ranked).cash) := by
  have hsell : ∀ n : ℕ,
      0 ≤ ((ranked.take n).foldl (sell_step pos today) ⟨cash0, st0, []⟩).cash :=
    fun n => sell_fold_cash_nonneg pos today (ranked.take n) _ hc
      (fun e he => hp e ((List.take_sublist n ranked).mem he))
  have hsellAll : 0 ≤ (ranked.foldl (sell_step pos today) ⟨cash0, st0, []⟩).cash :=
    sell_fold_cash_nonneg pos today ranked _ hc hp
  refine ⟨hsell, fun n => buy_fold_cash_nonneg s pos today (ranked.take n) _ hsellAll, ?_⟩
  intro market_open
  cases market_open with
  | false => exact hc
  | true =>
    show 0 ≤ (ranked.foldl (buy_step s pos today)
      (ranked.foldl (sell_step pos today) ⟨cash0, st0, []⟩)).cash
    exact buy_fold_cash_nonneg s pos today ranked _ hsellAll

/-- Witness for C10 at a concrete cycle: starting cash 10000, prices
10 and 5, both hypotheses hold and the cash after the first sell step
is non-negative. -/
theorem running_cash_nonneg_witness :
    ((0 : ℚ) ≤ 10000 ∧ ∀ e ∈ [entryDown, entryUp], 0 ≤ e.latest) ∧
    0 ≤ (([entryDown, entryUp].take 1).foldl (sell_step posA 10)
      ⟨10000, stEmpty, []⟩).cash :=
  ⟨⟨by norm_num, by decide⟩,
    (running_cash_nonneg settings1 posA 10 10000 stEmpty [entryDown, entryUp]
      (by norm_num) (by decide)).1 1⟩

/-! ## Claim theorems: error handling -/

/-- C6 counterexample: with `longWindow = 2` and symbol "A" holding a
single close, the whole ranking pass returns an error — no ranking, and
no entry for "B", is produced, although "B" has sufficient history.
The insufficient-history failure is not confined to "A"'s evaluation:
it aborts the whole cycle. -/
theorem insufficient_history_aborts_whole_cycle :
    rank_symbols barsShort ["A", "B"] 1 2 =
      Except.error (RankError.insufficientHistory "A" 2 1) := rfl

/-- C6 (amended): trend scoring fails with the insufficient-history
error exactly when fewer than `n` closes are available for the symbol;
and one symbol with insufficient history makes the whole ranking pass
fail — the cycle is aborted, there is no per-symbol skip. -/
theorem insufficient_history_spec :
    (∀ (bars : String → List ℚ) (sym : String) (n : ℕ),
      (∃ err, get_last_n_closes bars sym n = .error err) ↔
        (bars sym).length < n) ∧
    (∀ (bars : String → List ℚ) (syms : List String) (sw lw : ℕ)
      (s : String), s ∈ syms → (bars s).length < lw →
      ∃ err, rank_symbols bars syms sw lw = .error err) := by
  constructor
  · intro bars sym n
    constructor
    · rintro ⟨err, herr⟩
      by_contra hlen
      simp [get_last_n_closes, hlen] at herr
    · intro hlen
      exact ⟨RankError.insufficientHistory sym n (bars sym).length,
        by simp [get_last_n_closes, hlen]⟩
  · exact fun bars syms sw lw s hs hshort =>
      rank_symbols_error_of_short bars syms sw lw s hs hshort

/-- C8 counterexample: the broker's position query is handled inside
the core — a failing call is absorbed by `current_position_qty` and
execution continues with the substituted quantity 0; the upstream
error does not surface to the caller. -/
theorem position_failure_absorbed :
    current_position_qty (Except.error "position request failed") = 0 := rfl

/-- C8 (amended): the data-history call surfaces its failure (an
insufficient history for any watchlist symbol surfaces as an error of
the whole ranking pass), but the position query performs silent
recovery: any failure is absorbed and 0 substituted, a success is
passed through. -/
theorem upstream_failure_handling :
    (∀ msg : String, current_position_qty (.error msg) = 0) ∧
    (∀ q : ℤ, current_position_qty (.ok q) = q) ∧
    (∀ (bars : String → List ℚ) (syms : List String) (sw lw : ℕ)
      (s : String), s ∈ syms → (bars s).length < lw →
      ∃ err, rank_symbols bars syms sw lw = .error err) :=
  ⟨fun _ => rfl, fun _ => rfl,
    fun bars syms sw lw s hs hshort =>
      rank_symbols_error_of_short bars syms sw lw s hs hshort⟩

/-! ## Claim theorems: the Ordered Score Index -/

/-- C4: after any sequence of insertions, `get_ranked_descending`
returns a list whose length equals the number of insertions, and the
keys along the same traversal (the reverse-inorder key listing
`entriesDesc`, whose value projection is `get_ranked_descending`) form
a non-increasing sequence. -/
theorem ranked_descending_complete_and_sorted (ps : List (ℚ × α)) :
    (BST.get_ranked_descending (BST.insertAll BSTNode.nil ps)).length
      = ps.length ∧
    List.Pairwise (fun a b => b.1 ≤ a.1)
      (BST.entriesDesc (BST.insertAll BSTNode.nil ps)) := by
  constructor
  · rw [BST.get_ranked_descending_eq_entriesDesc, List.length_map,
      entriesDesc_insertAll_nil, length_stableSortDesc]
  · rw [entriesDesc_insertAll_nil]
    exact sorted_stableSortDesc ps

/-- C5: `count_less_than` equals the number of entries of the
descending listing whose key is strictly below the threshold, for
every insertion sequence and every threshold. -/
theorem count_below_matches_ranking (ps : List (ℚ × α)) (t : ℚ) :
    BST.count_less_than (BST.insertAll BSTNode.nil ps) t =
      ((BST.entriesDesc (BST.insertAll BSTNode.nil ps)).filter
        (fun x => decide (x.1 < t))).length := by
  rw [count_less_than_eq_countP, List.countP_eq_length_filter]

/-- C9: building the Ordered Score Index from a list of (score, entry)
pairs in order and reading it back yields exactly the stable descending
sort of that list (equal scores keeping insertion order, because ties
descend left and the reverse-inorder traversal visits a node before its
left subtree) — both for the (key, entry) listing and for the entry
sequence `get_ranked_descending` returns. In particular the tree
ranking and the stable array sort of `rank_symbols` agree, also under
ties. -/
theorem tree_ranking_eq_stable_sort (ps : List (ℚ × α)) :
    BST.entriesDesc (BST.insertAll BSTNode.nil ps) = stableSortDesc ps ∧
    BST.get_ranked_descending (BST.insertAll BSTNode.nil ps) =
      (stableSortDesc ps).map Prod.snd := by
  refine ⟨entriesDesc_insertAll_nil ps, ?_⟩
  rw [BST.get_ranked_descending_eq_entriesDesc, entriesDesc_insertAll_nil]

/-! ## Concrete evaluations (sanity checks of the embedding) -/

/-- Tie behaviour on a concrete input: keys 5, 3, 5 come back in
stable descending order. -/
theorem tie_example :
    BST.get_ranked_descending
        (BST.insertAll BSTNode.nil [(5, "a"), (3, "b"), (5, "c")]) =
      ["a", "c", "b"] := rfl

/-- The spec's worked example: closes `[1,2,3,4,5]` with windows 2 and
5 score to `short=4.5`, `long=3`, `trend=1.5`, `latest=5`. -/
theorem trend_example :
    score_symbols (fun _ => [1, 2, 3, 4, 5]) ["AAPL"] 2 5 =
      .ok [entryUp] := by
  show Except.ok [(⟨"AAPL", sma [4, 5] - sma [1, 2, 3, 4, 5],
    sma [4, 5], sma [1, 2, 3, 4, 5], 5⟩ : ScoreEntry)] = _
  norm_num [sma, entryUp]

end StockMarket
